import Mathlib

/-!
Shallow embedding of `src/DQNAgent.py` (DQN training for Flappy Bird).

The embedding models, from the source:
  * `ReplayMemory` (a `collections.deque` with `maxlen = capacity`) and its
    `push` / `sample` / `__len__` methods;
  * the frame stacker of `Runner` (also a bounded deque) and
    `Runner.get_recent_states`;
  * `Trainer.set_eps` (the linear exploration decay);
  * `DQNLoss.forward` (smooth-L1 temporal-difference loss over a batch,
    including the `.detach()` of the target network, modelled with
    forward-mode dual numbers);
  * the body of `Trainer.episode` (warm-up, transition recording, the
    pre-fill gate, the optimizer step and the periodic target sync).

Machine floats are modelled as exact rationals; PyTorch tensors as lists.
-/

namespace DQNFlappy

/-! ## Bounded deques

Both `ReplayMemory.memory` and `Runner.frame_stacker` are
`collections.deque(maxlen = C)`.  Appending to a full deque silently drops
the oldest (leftmost) element; with `maxlen = 0` the deque stays empty.
`dequeAppend` captures exactly that: append on the right, then drop from
the left whatever exceeds the capacity. -/

def dequeAppend (C : ℕ) (mem : List α) (x : α) : List α :=
  (mem ++ [x]).drop (mem.length + 1 - C)

/-- Repeatedly `append` (the fold order is the push order). -/
def dequeExtend (C : ℕ) (mem : List α) (xs : List α) : List α :=
  xs.foldl (dequeAppend C) mem

theorem dequeAppend_length (C : ℕ) (mem : List α) (x : α) :
    (dequeAppend C mem x).length = min (mem.length + 1) C := by
  simp only [dequeAppend, List.length_drop, List.length_append,
    List.length_cons, List.length_nil]
  omega

theorem dequeAppend_of_lt (C : ℕ) (mem : List α) (x : α)
    (h : mem.length < C) : dequeAppend C mem x = mem ++ [x] := by
  have h0 : mem.length + 1 - C = 0 := by omega
  simp [dequeAppend, h0]

/-- Core characterisation: starting from a deque whose length is within
capacity, a sequence of appends retains exactly the within-capacity tail of
(old contents ++ pushed elements). -/
theorem dequeExtend_eq_drop (C : ℕ) (xs : List α) :
    ∀ mem : List α, mem.length ≤ C →
      dequeExtend C mem xs = (mem ++ xs).drop (mem.length + xs.length - C) := by
  induction xs with
  | nil =>
    intro mem h
    have h0 : mem.length - C = 0 := by omega
    simp [dequeExtend, h0]
  | cons x xs ih =>
    intro mem h
    have hstep : dequeExtend C mem (x :: xs) = dequeExtend C (dequeAppend C mem x) xs :=
      rfl
    rw [hstep, ih _ (by rw [dequeAppend_length]; omega)]
    rw [dequeAppend_length]
    have hle : mem.length + 1 - C ≤ (mem ++ [x]).length := by
      simp only [List.length_append, List.length_cons, List.length_nil]
      omega
    have hsplit : dequeAppend C mem x ++ xs =
        ((mem ++ [x]) ++ xs).drop (mem.length + 1 - C) := by
      rw [List.drop_append_of_le_length hle]
      rfl
    rw [hsplit, List.drop_drop]
    have hlist : (mem ++ [x]) ++ xs = mem ++ x :: xs := by simp
    rw [hlist]
    congr 1
    simp only [List.length_cons]
    omega

theorem dequeExtend_length_le (C : ℕ) (xs : List α) (mem : List α)
    (h : mem.length ≤ C) : (dequeExtend C mem xs).length ≤ C := by
  rw [dequeExtend_eq_drop C xs mem h]
  simp
  omega

/-! ## ReplayMemory (`src/DQNAgent.py` lines 22–37)

```python
class ReplayMemory(object):
    def __init__(self, capacity):
        self.capacity = capacity
        self.memory = deque(maxlen=self.capacity)
    def push(self, *args):
        self.memory.append(Transition(*args))
    def __len__(self):
        return len(self.memory)
```
A memory state is the list of retained transitions, oldest first (deque
order), together with its capacity. -/

structure Transition (σ : Type u) (A : Type v) where
  state : σ
  action : A
  next_state : σ
  reward : ℚ
  done : Bool
deriving DecidableEq, Repr

structure ReplayMemory (σ : Type u) (A : Type v) where
  capacity : ℕ
  memory : List (Transition σ A)
deriving DecidableEq, Repr

def ReplayMemory.mk_empty (σ : Type u) (A : Type v) (capacity : ℕ) :
    ReplayMemory σ A :=
  ⟨capacity, []⟩

def ReplayMemory.push (m : ReplayMemory σ A) (t : Transition σ A) :
    ReplayMemory σ A :=
  ⟨m.capacity, dequeAppend m.capacity m.memory t⟩

def ReplayMemory.len (m : ReplayMemory σ A) : ℕ := m.memory.length

def ReplayMemory.pushMany (m : ReplayMemory σ A) (ts : List (Transition σ A)) :
    ReplayMemory σ A :=
  ts.foldl ReplayMemory.push m

theorem ReplayMemory.foldl_push (ts : List (Transition σ A)) :
    ∀ (C : ℕ) (m0 : List (Transition σ A)),
      (ts.foldl ReplayMemory.push ⟨C, m0⟩) = ⟨C, dequeExtend C m0 ts⟩ := by
  induction ts with
  | nil => intro C m0; rfl
  | cons t ts ih =>
    intro C m0
    simp only [List.foldl_cons]
    exact ih C (dequeAppend C m0 t)

theorem ReplayMemory.pushMany_memory (C : ℕ) (ts : List (Transition σ A)) :
    ((ReplayMemory.mk_empty σ A C).pushMany ts).memory =
      ts.drop (ts.length - C) := by
  show ((ts.foldl ReplayMemory.push ⟨C, []⟩)).memory = ts.drop (ts.length - C)
  rw [ReplayMemory.foldl_push ts C []]
  show dequeExtend C [] ts = ts.drop (ts.length - C)
  rw [dequeExtend_eq_drop C ts [] (by simp)]
  simp

/-- C2 — For every sequence of pushes into a `ReplayMemory` of fixed
capacity `C` starting empty: after every operation the length is at most
`C`, and once at least `C` transitions have been pushed the length equals
`C` and the retained contents are exactly the `C` most-recently-pushed
transitions in push order (FIFO eviction). -/
theorem replayMemory_fifo (σ : Type u) (A : Type v) (C : ℕ)
    (ts : List (Transition σ A)) :
    ((ReplayMemory.mk_empty σ A C).pushMany ts).len ≤ C ∧
    (C ≤ ts.length →
      ((ReplayMemory.mk_empty σ A C).pushMany ts).len = C ∧
      ((ReplayMemory.mk_empty σ A C).pushMany ts).memory =
        ts.drop (ts.length - C)) := by
  have hm := ReplayMemory.pushMany_memory (σ := σ) (A := A) C ts
  constructor
  · show (((ReplayMemory.mk_empty σ A C).pushMany ts).memory).length ≤ C
    rw [hm]; simp; omega
  · intro hC
    refine ⟨?_, hm⟩
    show (((ReplayMemory.mk_empty σ A C).pushMany ts).memory).length = C
    rw [hm]; simp; omega

/-- Witness for C2 at capacity 3 and five concrete pushes. -/
theorem replayMemory_fifo_witness :
    ((ReplayMemory.mk_empty ℕ ℕ 3).pushMany
        [⟨0, 0, 0, 0, false⟩, ⟨1, 0, 0, 0, false⟩, ⟨2, 0, 0, 0, false⟩,
         ⟨3, 0, 0, 0, false⟩, ⟨4, 0, 0, 0, false⟩]).len = 3 := by
  have h := (replayMemory_fifo ℕ ℕ 3
    [⟨0, 0, 0, 0, false⟩, ⟨1, 0, 0, 0, false⟩, ⟨2, 0, 0, 0, false⟩,
     ⟨3, 0, 0, 0, false⟩, ⟨4, 0, 0, 0, false⟩]).2 (by decide)
  exact h.1

/-! ## Frame stack (`src/DQNAgent.py` lines 133, 154–156)

```python
self.frame_stacker = deque(maxlen=frame_stack)          # line 133
def get_recent_states(self):                            # lines 154-156
    assert len(self.frame_stacker) == self.agent.frame_stack, "Not filled enough frames for stacking!"
    return np.array(self.frame_stacker)
```
The failed assert is the spec's `InsufficientFramesError`.  `np.array` on a
deque preserves iteration order (oldest first = push order). -/

inductive StackError where
  | insufficientFrames
deriving DecidableEq, Repr

def get_recent_states (frame_stack : ℕ) (frame_stacker : List φ) :
    Except StackError (List φ) :=
  if frame_stacker.length = frame_stack then .ok frame_stacker
  else .error .insufficientFrames

/-- C7 — For every sequence of frame pushes since the last reset (the stack
starts empty): reading the snapshot fails with `InsufficientFramesError`
whenever fewer than K frames have been pushed, and after K or more pushes it
returns exactly the K most recent frames in push order. -/
theorem frameStack_snapshot (φ : Type u) (K : ℕ) (frames : List φ) :
    (frames.length < K →
      get_recent_states K (dequeExtend K [] frames) =
        .error .insufficientFrames) ∧
    (K ≤ frames.length →
      get_recent_states K (dequeExtend K [] frames) =
        .ok (frames.drop (frames.length - K))) := by
  have hc : dequeExtend K [] frames = frames.drop (frames.length - K) := by
    rw [dequeExtend_eq_drop K frames [] (by simp)]
    simp
  have hlen : (dequeExtend K [] frames).length = min frames.length K := by
    rw [hc]; simp; omega
  constructor
  · intro h
    have : (dequeExtend K [] frames).length ≠ K := by
      rw [hlen]; omega
    simp [get_recent_states, this]
  · intro h
    have : (dequeExtend K [] frames).length = K := by
      rw [hlen]; omega
    simp [get_recent_states, this, hc]
    omega

/-- Witness for C7: with K = 2, one push errors, three pushes return the
last two frames in push order. -/
theorem frameStack_snapshot_witness :
    get_recent_states 2 (dequeExtend 2 [] [10]) =
        .error StackError.insufficientFrames ∧
    get_recent_states 2 (dequeExtend 2 [] [10, 11, 12]) = .ok [11, 12] := by
  constructor
  · exact (frameStack_snapshot ℕ 2 [10]).1 (by decide)
  · have h := (frameStack_snapshot ℕ 2 [10, 11, 12]).2 (by decide)
    simpa using h

/-! ## C9 — the capacity-5 / 7-push scenario.

The claim asserts the retained contents are "transitions #3–#7, 0-indexed
from the first push".  0-indexed, the seven pushes are #0–#6; the deque
retains the last five, i.e. #2–#6.  A transition "#7" does not exist. -/

def numberedTransition (i : ℕ) : Transition ℕ ℕ := ⟨i, 0, i, 0, false⟩

/-- C9 counterexample — pushing transitions #0–#6 (seven distinct
transitions, 0-indexed from the first push) into a capacity-5 memory
retains exactly #2–#6, which differs from the claimed #3–#7. -/
theorem capacityFive_counterexample :
    ((ReplayMemory.mk_empty ℕ ℕ 5).pushMany
        ((List.range 7).map numberedTransition)).memory =
      [numberedTransition 2, numberedTransition 3, numberedTransition 4,
       numberedTransition 5, numberedTransition 6] ∧
    [numberedTransition 2, numberedTransition 3, numberedTransition 4,
       numberedTransition 5, numberedTransition 6] ≠
      [numberedTransition 3, numberedTransition 4, numberedTransition 5,
       numberedTransition 6, numberedTransition 7] := by
  constructor
  · decide
  · decide

/-- C9 (amended) — after pushing 7 distinct transitions into a capacity-5
memory, the length is 5 and the contents are transitions #2–#6, 0-indexed
from the first push (equivalently #3–#7 when counting pushes from 1). -/
theorem capacityFive_scenario (ts : List (Transition σ A))
    (h7 : ts.length = 7) :
    ((ReplayMemory.mk_empty σ A 5).pushMany ts).len = 5 ∧
    ((ReplayMemory.mk_empty σ A 5).pushMany ts).memory = ts.drop 2 := by
  have hm := ReplayMemory.pushMany_memory (σ := σ) (A := A) 5 ts
  rw [h7] at hm
  constructor
  · show (((ReplayMemory.mk_empty σ A 5).pushMany ts).memory).length = 5
    rw [hm]
    simp [h7]
  · simpa using hm

/-- Witness for C9 (amended) at the singleton-state transitions #0–#6. -/
theorem capacityFive_scenario_witness :
    ((ReplayMemory.mk_empty ℕ ℕ 5).pushMany
        ((List.range 7).map numberedTransition)).len = 5 := by
  exact (capacityFive_scenario ((List.range 7).map numberedTransition)
    (by decide)).1

/-! ## Exploration decay (`src/DQNAgent.py` lines 230–232)

```python
def set_eps(self):
    self.agent.eps = np.max([0.01, (0.01 + 0.99 * (1 - self.total_steps/self.final_exp_frame))])
```
`np.max` of the two-element list is the binary maximum; the float literals
are modelled exactly as the rationals they denote in the formula. -/

def set_eps (total_steps final_exp_frame : ℕ) : ℚ :=
  max (1 / 100)
    (1 / 100 + 99 / 100 * (1 - (total_steps : ℚ) / (final_exp_frame : ℚ)))

/-- C4 — the decay schedule `eps = max(0.01, 0.01 + 0.99*(1 - t/F))`
satisfies: `eps 0 = 1`, `eps F = 0.01`, `eps` is non-increasing in the step
count, and `eps t = 0.01` for every `t ≥ F`. -/
theorem decaySchedule_props (F : ℕ) (hF : 0 < F) :
    set_eps 0 F = 1 ∧
    set_eps F F = 1 / 100 ∧
    (∀ t1 t2 : ℕ, t1 ≤ t2 → set_eps t2 F ≤ set_eps t1 F) ∧
    (∀ t : ℕ, F ≤ t → set_eps t F = 1 / 100) := by
  have hFQ : (0 : ℚ) < (F : ℚ) := by exact_mod_cast hF
  refine ⟨?_, ?_, ?_, ?_⟩
  · simp [set_eps]
    norm_num
  · have h1 : (F : ℚ) / (F : ℚ) = 1 := div_self (ne_of_gt hFQ)
    simp [set_eps, h1]
  · intro t1 t2 h12
    unfold set_eps
    refine max_le_max le_rfl ?_
    have hdiv : (t1 : ℚ) / (F : ℚ) ≤ (t2 : ℚ) / (F : ℚ) := by
      apply div_le_div_of_nonneg_right ?_ hFQ.le
      exact_mod_cast h12
    nlinarith
  · intro t ht
    have h1 : (1 : ℚ) ≤ (t : ℚ) / (F : ℚ) := by
      rw [le_div_iff₀ hFQ]
      simp
      exact_mod_cast ht
    unfold set_eps
    rw [max_eq_left]
    nlinarith

/-- Witness for C4 at `finalExpFrame = 5`. -/
theorem decaySchedule_props_witness :
    set_eps 0 5 = 1 ∧ set_eps 5 5 = 1 / 100 ∧ set_eps 7 5 = 1 / 100 := by
  have h := decaySchedule_props 5 (by decide)
  exact ⟨h.1, h.2.1, h.2.2.2 7 (by decide)⟩

/-! ## Uniform sampling without replacement (`random.sample`)

`ReplayMemory.sample` (lines 32–34) calls `random.sample(list(self.memory),
batch_size)`, which draws `batch_size` elements without replacement from a
fresh copy of the memory.  The random number generator is modelled as the
list of raw draws `choices`: the i-th draw picks one of the `n - i`
positions still available.  `drawIdx` performs the successive picks over
the list of still-available positions. -/

def drawIdx : List ℕ → List ℕ → List ℕ
  | _, [] => []
  | avail, c :: cs => avail.getD c 0 :: drawIdx (avail.eraseIdx c) cs

/-- The i-th raw draw must be a position among the `n - i` still
available. -/
def validChoices : List ℕ → ℕ → Bool
  | [], _ => true
  | c :: cs, n => decide (c < n) && validChoices cs (n - 1)

theorem drawIdx_length (cs : List ℕ) :
    ∀ avail : List ℕ, validChoices cs avail.length = true →
      (drawIdx avail cs).length = cs.length := by
  induction cs with
  | nil => intro avail _; rfl
  | cons c cs ih =>
    intro avail hv
    simp only [validChoices, Bool.and_eq_true, decide_eq_true_eq] at hv
    have hlen : (avail.eraseIdx c).length = avail.length - 1 :=
      List.length_eraseIdx_of_lt hv.1
    simp only [drawIdx, List.length_cons]
    rw [ih (avail.eraseIdx c) (by rw [hlen]; exact hv.2)]

theorem drawIdx_mem (cs : List ℕ) :
    ∀ avail : List ℕ, validChoices cs avail.length = true →
      ∀ x ∈ drawIdx avail cs, x ∈ avail := by
  induction cs with
  | nil => intro avail _ x hx; cases hx
  | cons c cs ih =>
    intro avail hv x hx
    simp only [validChoices, Bool.and_eq_true, decide_eq_true_eq] at hv
    have hlen : (avail.eraseIdx c).length = avail.length - 1 :=
      List.length_eraseIdx_of_lt hv.1
    simp only [drawIdx, List.mem_cons] at hx
    rcases hx with hx | hx
    · rw [hx, List.getD_eq_getElem _ _ hv.1]
      exact List.getElem_mem _
    · exact (List.eraseIdx_sublist avail c).subset
        (ih (avail.eraseIdx c) (by rw [hlen]; exact hv.2) x hx)

theorem not_mem_eraseIdx_self {avail : List ℕ} (hnd : avail.Nodup)
    (c : ℕ) (hc : c < avail.length) : avail[c] ∉ avail.eraseIdx c := by
  intro hmem
  rw [List.mem_eraseIdx_iff_getElem] at hmem
  obtain ⟨i, hi, hne, heq⟩ := hmem
  exact hne ((hnd.getElem_inj_iff).mp heq)

theorem drawIdx_nodup (cs : List ℕ) :
    ∀ avail : List ℕ, avail.Nodup → validChoices cs avail.length = true →
      (drawIdx avail cs).Nodup := by
  induction cs with
  | nil => intro avail _ _; exact List.nodup_nil
  | cons c cs ih =>
    intro avail hnd hv
    simp only [validChoices, Bool.and_eq_true, decide_eq_true_eq] at hv
    have hlen : (avail.eraseIdx c).length = avail.length - 1 :=
      List.length_eraseIdx_of_lt hv.1
    have hnd' : (avail.eraseIdx c).Nodup :=
      (List.eraseIdx_sublist avail c).nodup hnd
    have hv' : validChoices cs (avail.eraseIdx c).length = true := by
      rw [hlen]; exact hv.2
    simp only [drawIdx, List.nodup_cons]
    refine ⟨?_, ih _ hnd' hv'⟩
    intro hmem
    rw [List.getD_eq_getElem _ _ hv.1] at hmem
    exact not_mem_eraseIdx_self hnd c hv.1 (drawIdx_mem cs _ hv' _ hmem)

theorem drawIdx_inj (cs1 : List ℕ) :
    ∀ (cs2 avail : List ℕ), avail.Nodup →
      validChoices cs1 avail.length = true →
      validChoices cs2 avail.length = true →
      cs1.length = cs2.length →
      drawIdx avail cs1 = drawIdx avail cs2 → cs1 = cs2 := by
  induction cs1 with
  | nil =>
    intro cs2 avail _ _ _ hlen _
    exact (List.length_eq_zero.mp hlen.symm).symm
  | cons c1 cs1 ih =>
    intro cs2 avail hnd hv1 hv2 hlen heq
    cases cs2 with
    | nil => cases hlen
    | cons c2 cs2 =>
      simp only [validChoices, Bool.and_eq_true, decide_eq_true_eq] at hv1 hv2
      simp only [drawIdx, List.cons.injEq] at heq
      have hc : c1 = c2 := by
        have h1 := List.getD_eq_getElem avail 0 hv1.1
        have h2 := List.getD_eq_getElem avail 0 hv2.1
        rw [h1, h2] at heq
        exact (hnd.getElem_inj_iff).mp heq.1
      subst hc
      have hlen' : (avail.eraseIdx c1).length = avail.length - 1 :=
        List.length_eraseIdx_of_lt hv1.1
      have := ih cs2 (avail.eraseIdx c1)
        ((List.eraseIdx_sublist avail c1).nodup hnd)
        (by rw [hlen']; exact hv1.2) (by rw [hlen']; exact hv2.2)
        (by simpa using hlen) heq.2
      rw [this]

theorem drawIdx_surj (l : List ℕ) :
    ∀ avail : List ℕ, avail.Nodup → l.Nodup → (∀ x ∈ l, x ∈ avail) →
      ∃ cs : List ℕ, validChoices cs avail.length = true ∧
        cs.length = l.length ∧ drawIdx avail cs = l := by
  induction l with
  | nil =>
    intro avail _ _ _
    exact ⟨[], rfl, rfl, rfl⟩
  | cons x l ih =>
    intro avail hnd hlnd hsub
    have hx : x ∈ avail := hsub x (List.mem_cons_self x l)
    have hc : avail.indexOf x < avail.length := List.indexOf_lt_length.mpr hx
    have hget : avail[avail.indexOf x] = x := List.getElem_indexOf hc
    have hlen' : (avail.eraseIdx (avail.indexOf x)).length = avail.length - 1 :=
      List.length_eraseIdx_of_lt hc
    have hnd' : (avail.eraseIdx (avail.indexOf x)).Nodup :=
      (List.eraseIdx_sublist avail _).nodup hnd
    have hsub' : ∀ y ∈ l, y ∈ avail.eraseIdx (avail.indexOf x) := by
      intro y hy
      have hyx : y ≠ x := by
        intro hcontr
        rw [hcontr] at hy
        exact (List.nodup_cons.mp hlnd).1 hy
      have hymem : y ∈ avail := hsub y (List.mem_cons_of_mem x hy)
      obtain ⟨i, hi, hieq⟩ := List.getElem_of_mem hymem
      rw [List.mem_eraseIdx_iff_getElem]
      refine ⟨i, hi, ?_, hieq⟩
      intro hcontr
      apply hyx
      rw [← hieq]
      subst hcontr
      exact hget
    obtain ⟨cs, hv, hcslen, hdraw⟩ :=
      ih (avail.eraseIdx (avail.indexOf x)) hnd'
        (List.nodup_cons.mp hlnd).2 hsub'
    refine ⟨avail.indexOf x :: cs, ?_, ?_, ?_⟩
    · simp only [validChoices, Bool.and_eq_true, decide_eq_true_eq]
      exact ⟨hc, by rw [← hlen']; exact hv⟩
    · simp [hcslen]
    · simp only [drawIdx, List.getD_eq_getElem _ _ hc, hget, hdraw]

/-! ## `ReplayMemory.sample` (`src/DQNAgent.py` lines 32–34)

```python
def sample(self, batch_size):
    batch = random.sample(list(self.memory), batch_size)
    return Transition(*(zip(*batch)))
```
`random.sample` raises `ValueError` when `batch_size > len(memory)` — the
spec's `InsufficientSamplesError`.  `zip(*batch)` transposes the batch
into per-field columns; on an *empty* batch it produces no columns at all,
so `Transition(*...)` raises `TypeError` (missing arguments). -/

def randomSample (pool : List α) (choices : List ℕ) : List α :=
  (drawIdx (List.range pool.length) choices).filterMap (fun i => pool[i]?)

inductive SampleError where
  /-- `ValueError` from `random.sample` (`batch_size` exceeds population). -/
  | insufficientSamples
  /-- `TypeError` from `Transition(*zip(*batch))` on an empty batch. -/
  | typeError
deriving DecidableEq, Repr

/-- The transposed batch `Transition(state=(...), action=(...), ...)`. -/
structure TransBatch (σ : Type u) (A : Type v) where
  state : List σ
  action : List A
  next_state : List σ
  reward : List ℚ
  done : List Bool
deriving DecidableEq, Repr

def toBatch (batch : List (Transition σ A)) : TransBatch σ A :=
  ⟨batch.map (·.state), batch.map (·.action), batch.map (·.next_state),
   batch.map (·.reward), batch.map (·.done)⟩

/-- `sample` returns its result together with the (unchanged) memory:
the method only reads `self.memory` through a fresh `list(...)` copy. -/
def ReplayMemory.sample (m : ReplayMemory σ A) (choices : List ℕ)
    (batch_size : ℕ) :
    Except SampleError (TransBatch σ A) × ReplayMemory σ A :=
  if m.memory.length < batch_size then (.error .insufficientSamples, m)
  else
    match randomSample m.memory (choices.take batch_size) with
    | [] => (.error .typeError, m)
    | t :: ts => (.ok (toBatch (t :: ts)), m)

theorem filterMap_getElem_length (pool : List α) (idxs : List ℕ)
    (h : ∀ i ∈ idxs, i < pool.length) :
    (idxs.filterMap (fun i => pool[i]?)).length = idxs.length := by
  induction idxs with
  | nil => rfl
  | cons i idxs ih =>
    have hi : i < pool.length := h i (List.mem_cons_self i idxs)
    simp only [List.filterMap_cons, List.getElem?_eq_getElem hi,
      List.length_cons]
    rw [ih (fun j hj => h j (List.mem_cons_of_mem i hj))]

theorem randomSample_length (pool : List α) (choices : List ℕ)
    (hv : validChoices choices pool.length = true) :
    (randomSample pool choices).length = choices.length := by
  unfold randomSample
  have hrange : (List.range pool.length).length = pool.length :=
    List.length_range pool.length
  have hmem : ∀ i ∈ drawIdx (List.range pool.length) choices,
      i < pool.length := by
    intro i hi
    exact List.mem_range.mp
      (drawIdx_mem choices _ (by rw [hrange]; exact hv) i hi)
  rw [filterMap_getElem_length _ _ hmem,
    drawIdx_length choices _ (by rw [hrange]; exact hv)]

/-- C3 (amended) — for every memory state, every `batchSize ≥ 1` and every
run of the random number generator: if `len(memory) ≥ batchSize`,
`sample` succeeds and returns exactly `batchSize` transitions read at
pairwise distinct positions of the current contents (distinct by identity,
without replacement), leaving the memory unchanged; each admissible
position sequence is produced by exactly one run of the generator (uniform
sampling without replacement); and if `len(memory) < batchSize`, `sample`
fails with `InsufficientSamplesError`. -/
theorem sample_spec (m : ReplayMemory σ A) (batch_size : ℕ)
    (choices : List ℕ) (hk : 1 ≤ batch_size)
    (hchoice : choices.length = batch_size) :
    (batch_size ≤ m.memory.length →
      validChoices choices m.memory.length = true →
      ∃ idxs : List ℕ, idxs.Nodup ∧ idxs.length = batch_size ∧
        (∀ i ∈ idxs, i < m.memory.length) ∧
        (m.sample choices batch_size).1 =
          .ok (toBatch (idxs.filterMap (fun i => m.memory[i]?))) ∧
        (m.sample choices batch_size).2 = m) ∧
    (m.memory.length < batch_size →
      (m.sample choices batch_size).1 = .error .insufficientSamples) ∧
    (∀ idxs : List ℕ, idxs.Nodup → idxs.length = batch_size →
      (∀ i ∈ idxs, i < m.memory.length) →
      ∃! cs : List ℕ, validChoices cs m.memory.length = true ∧
        cs.length = batch_size ∧
        drawIdx (List.range m.memory.length) cs = idxs) := by
  have htake : choices.take batch_size = choices := by
    rw [← hchoice]; exact List.take_length choices
  have hrange : (List.range m.memory.length).length = m.memory.length :=
    List.length_range m.memory.length
  refine ⟨?_, ?_, ?_⟩
  · intro hle hv
    refine ⟨drawIdx (List.range m.memory.length) choices, ?_, ?_, ?_, ?_, ?_⟩
    · exact drawIdx_nodup choices _ (List.nodup_range _)
        (by rw [hrange]; exact hv)
    · rw [drawIdx_length choices _ (by rw [hrange]; exact hv), hchoice]
    · intro i hi
      exact List.mem_range.mp
        (drawIdx_mem choices _ (by rw [hrange]; exact hv) i hi)
    · unfold ReplayMemory.sample
      rw [if_neg (by omega), htake]
      have hlen : (randomSample m.memory choices).length = batch_size := by
        rw [randomSample_length m.memory choices hv, hchoice]
      cases hcases : randomSample m.memory choices with
      | nil => rw [hcases] at hlen; simp at hlen; omega
      | cons t ts =>
        simp only []
        unfold randomSample at hcases
        rw [hcases]
    · unfold ReplayMemory.sample
      rw [if_neg (by omega), htake]
      cases hcases : randomSample m.memory choices with
      | nil => rfl
      | cons t ts => rfl
  · intro hlt
    unfold ReplayMemory.sample
    rw [if_pos hlt]
  · intro idxs hnd hlen hbound
    have hsubr : ∀ i ∈ idxs, i ∈ List.range m.memory.length := by
      intro i hi; exact List.mem_range.mpr (hbound i hi)
    obtain ⟨cs, hv', hcslen, hdraw⟩ :=
      drawIdx_surj idxs (List.range m.memory.length)
        (List.nodup_range _) hnd hsubr
    refine ⟨cs, ⟨by rw [← hrange]; exact hv', by rw [hcslen, hlen], hdraw⟩, ?_⟩
    rintro cs' ⟨hv'', hcslen', hdraw'⟩
    exact drawIdx_inj cs' cs (List.range m.memory.length)
      (List.nodup_range _) (by rw [hrange]; exact hv'')
      hv' (by rw [hcslen', hcslen, hlen]) (by rw [hdraw', hdraw])

/-- C3 counterexample — at `batchSize = 0` with a non-empty memory (so
`len(memory) ≥ batchSize`), `sample` does not return a batch of 0
transitions: `random.sample` yields the empty batch and
`Transition(*zip(*batch))` fails with `TypeError` (which is not the
`InsufficientSamplesError` the claim's failure branch allows). -/
theorem sample_batchSizeZero_counterexample :
    (((⟨5, [numberedTransition 0]⟩ : ReplayMemory ℕ ℕ).sample [] 0).1 =
      Except.error SampleError.typeError) ∧
    0 ≤ (⟨5, [numberedTransition 0]⟩ : ReplayMemory ℕ ℕ).len ∧
    SampleError.typeError ≠ SampleError.insufficientSamples := by
  refine ⟨rfl, Nat.zero_le _, by decide⟩

/-- Witness for C3 (amended): at `batchSize = 1` on a two-element memory
the sample succeeds, and at `batchSize = 2` on a one-element memory it
fails with `InsufficientSamplesError`. -/
theorem sample_spec_witness :
    (∃ idxs : List ℕ, idxs.Nodup ∧ idxs.length = 1 ∧
      (∀ i ∈ idxs,
        i < (⟨5, [numberedTransition 0, numberedTransition 1]⟩ :
          ReplayMemory ℕ ℕ).memory.length) ∧
      ((⟨5, [numberedTransition 0, numberedTransition 1]⟩ :
          ReplayMemory ℕ ℕ).sample [1] 1).1 =
        .ok (toBatch (idxs.filterMap
          (fun i => (⟨5, [numberedTransition 0, numberedTransition 1]⟩ :
            ReplayMemory ℕ ℕ).memory[i]?))) ∧
      ((⟨5, [numberedTransition 0, numberedTransition 1]⟩ :
          ReplayMemory ℕ ℕ).sample [1] 1).2 =
        (⟨5, [numberedTransition 0, numberedTransition 1]⟩ :
          ReplayMemory ℕ ℕ)) ∧
    ((⟨5, [numberedTransition 0]⟩ : ReplayMemory ℕ ℕ).sample [0, 0] 2).1 =
      Except.error SampleError.insufficientSamples := by
  constructor
  · exact (sample_spec _ 1 [1] (by decide) (by decide)).1 (by decide) (by decide)
  · exact (sample_spec _ 2 [0, 0] (by decide) (by decide)).2.1 (by decide)

/-! ## DQNLoss (`src/DQNAgent.py` lines 102–121)

```python
def forward(self, transition_in):
    states = torch.tensor(np.stack(transition_in.state), ...) / 255
    actions_index = torch.tensor([self.action_set.index(action) for action in transition_in.action], ...)
    next_states = torch.tensor(np.stack(transition_in.next_state), ...) / 255
    rewards = torch.tensor(transition_in.reward, ...)
    done = torch.tensor(transition_in.done, dtype=torch.float, ...)
    pred_return_all = self.q_network(states)
    pred_return = pred_return_all.gather(1, actions_index.unsqueeze(1)).squeeze()
    one_step_return = rewards + self.gamma * self.q_target(next_states).detach().max(1)[0] * (1 - done)
    return self.loss(pred_return, one_step_return)
```
States are pixel vectors (`List ℚ`), networks are functions from a scaled
pixel vector to the per-action value vector.  `nn.SmoothL1Loss()` is the
Huber loss with `beta = 1` and mean reduction.  The `.detach()` is modelled
with forward-mode dual numbers: the second component of a `DQ` is the
sensitivity of the value to a perturbation of the *target network's*
parameters, and `detach` zeroes it. -/

def smoothL1 (p t : ℚ) : ℚ :=
  if |p - t| < 1 then (p - t) ^ 2 / 2 else |p - t| - 1 / 2

def meanQ (xs : List ℚ) : ℚ := xs.sum / xs.length

/-- `tensor.max(1)[0]` on one row: the maximum entry (torch requires the
row non-empty; on `[]` we return a junk `0`). -/
def torchRowMax : List ℚ → ℚ
  | [] => 0
  | x :: xs => xs.foldl max x

def DQNLoss.forward (q_network q_target : List ℚ → List ℚ)
    [DecidableEq A] (action_set : List A) (gamma : ℚ)
    (transition_in : TransBatch (List ℚ) A) : ℚ :=
  let states := transition_in.state.map (List.map (fun p => p / 255))
  let actions_index := transition_in.action.map (fun a => action_set.indexOf a)
  let next_states := transition_in.next_state.map (List.map (fun p => p / 255))
  let rewards := transition_in.reward
  let done := transition_in.done.map (fun d => if d then (1 : ℚ) else 0)
  let pred_return_all := states.map q_network
  let pred_return :=
    List.zipWith (fun row i => row.getD i 0) pred_return_all actions_index
  let q_target_max := (next_states.map q_target).map torchRowMax
  let one_step_return :=
    List.zipWith (fun r md => r + gamma * md.1 * (1 - md.2))
      rewards (q_target_max.zip done)
  meanQ (List.zipWith smoothL1 pred_return one_step_return)

/-- The spec's per-transition formula: Huber distance between the online
value of the taken action and `reward + gamma * max_a targetQ(s')[a] *
(1 - done)`, averaged over the batch. -/
def dqnLossFormula (q_network q_target : List ℚ → List ℚ)
    [DecidableEq A] (action_set : List A) (gamma : ℚ)
    (batch : List (Transition (List ℚ) A)) : ℚ :=
  meanQ (batch.map (fun tr =>
    smoothL1
      ((q_network (tr.state.map (fun p => p / 255))).getD
        (action_set.indexOf tr.action) 0)
      (tr.reward +
        gamma * torchRowMax (q_target (tr.next_state.map (fun p => p / 255))) *
          (1 - if tr.done then (1 : ℚ) else 0))))

/-! ### Dual numbers for gradient tracking w.r.t. the target parameters -/

def DQ : Type := ℚ × ℚ

def DQ.val (x : DQ) : ℚ := x.1

def DQ.tan (x : DQ) : ℚ := x.2

def dConst (q : ℚ) : DQ := (q, 0)

def dAdd (x y : DQ) : DQ := (x.1 + y.1, x.2 + y.2)

def dSub (x y : DQ) : DQ := (x.1 - y.1, x.2 - y.2)

def dMul (x y : DQ) : DQ := (x.1 * y.1, x.1 * y.2 + x.2 * y.1)

/-- `.detach()`: keep the value, sever the derivative. -/
def dDetach (x : DQ) : DQ := (x.1, 0)

/-- torch `max` keeps the first of equal maxima (`<` comparison). -/
def dMax (x y : DQ) : DQ := if x.1 < y.1 then y else x

def dRowMax : List DQ → DQ
  | [] => dConst 0
  | x :: xs => xs.foldl dMax x

def dSmoothL1 (p t : DQ) : DQ :=
  let d := dSub p t
  if |d.1| < 1 then (d.1 ^ 2 / 2, d.1 * d.2)
  else (|d.1| - 1 / 2, if d.1 < 0 then -d.2 else d.2)

def dMeanQ (xs : List DQ) : DQ :=
  ((xs.map DQ.val).sum / xs.length, (xs.map DQ.tan).sum / xs.length)

/-- `DQNLoss.forward` in the dual semantics.  The target network returns
dual values (arbitrary sensitivity to its own parameters); the code
applies `.detach()` to them before the row-max.  The online network,
rewards and done flags do not depend on the target parameters, so they
enter as constants. -/
def DQNLoss.forwardD (q_network : List ℚ → List ℚ)
    (q_targetD : List ℚ → List DQ) [DecidableEq A] (action_set : List A)
    (gamma : ℚ) (transition_in : TransBatch (List ℚ) A) : DQ :=
  let states := transition_in.state.map (List.map (fun p => p / 255))
  let actions_index := transition_in.action.map (fun a => action_set.indexOf a)
  let next_states := transition_in.next_state.map (List.map (fun p => p / 255))
  let rewards := transition_in.reward
  let done := transition_in.done.map (fun d => if d then (1 : ℚ) else 0)
  let pred_return_all := states.map q_network
  let pred_return :=
    List.zipWith (fun row i => dConst (row.getD i 0)) pred_return_all actions_index
  let q_target_max :=
    (next_states.map q_targetD).map (fun row => dRowMax (row.map dDetach))
  let one_step_return :=
    List.zipWith
      (fun r md => dAdd (dConst r)
        (dMul (dMul (dConst gamma) md.1) (dSub (dConst 1) (dConst md.2))))
      rewards (q_target_max.zip done)
  dMeanQ (List.zipWith dSmoothL1 pred_return one_step_return)

theorem dSmoothL1_fst (p t : DQ) : (dSmoothL1 p t).1 = smoothL1 p.1 t.1 := by
  unfold dSmoothL1 smoothL1 dSub
  by_cases h : |p.1 - t.1| < 1 <;> simp [h]

theorem dSmoothL1_snd (p t : DQ) (hp : p.2 = 0) (ht : t.2 = 0) :
    (dSmoothL1 p t).2 = 0 := by
  unfold dSmoothL1 dSub
  by_cases h : |p.1 - t.1| < 1 <;>
    by_cases h2 : p.1 - t.1 < 0 <;> simp [h, h2, hp, ht]

theorem dMax_fst (x y : DQ) : (dMax x y).1 = max x.1 y.1 := by
  unfold dMax
  rcases lt_trichotomy x.1 y.1 with h | h | h
  · simp [h, max_eq_right h.le]
  · simp [h, max_eq_right h.le]
  · rw [if_neg (by exact not_lt_of_gt h), max_eq_left h.le]

theorem foldl_dMax_fst (l : List DQ) :
    ∀ init : DQ, (l.foldl dMax init).1 = (l.map DQ.val).foldl max init.1 := by
  induction l with
  | nil => intro init; rfl
  | cons x xs ih =>
    intro init
    simp only [List.foldl_cons, List.map_cons]
    rw [ih (dMax init x), dMax_fst]
    rfl

theorem dRowMax_fst (l : List DQ) :
    (dRowMax l).1 = torchRowMax (l.map DQ.val) := by
  cases l with
  | nil => rfl
  | cons x xs =>
    simp only [dRowMax, torchRowMax, List.map_cons]
    exact foldl_dMax_fst xs x

theorem foldl_dMax_snd (l : List DQ) :
    ∀ init : DQ, init.2 = 0 → (∀ x ∈ l, x.2 = 0) →
      (l.foldl dMax init).2 = 0 := by
  induction l with
  | nil => intro init h _; exact h
  | cons x xs ih =>
    intro init hinit hall
    simp only [List.foldl_cons]
    refine ih (dMax init x) ?_ (fun y hy => hall y (List.mem_cons_of_mem x hy))
    unfold dMax
    by_cases h : init.1 < x.1 <;>
      simp [h, hinit, hall x (List.mem_cons_self x xs)]

theorem dRowMax_snd (l : List DQ) (h : ∀ x ∈ l, x.2 = 0) :
    (dRowMax l).2 = 0 := by
  cases l with
  | nil => rfl
  | cons x xs =>
    exact foldl_dMax_snd xs x (h x (List.mem_cons_self x xs))
      (fun y hy => h y (List.mem_cons_of_mem x hy))

theorem zipWith_mem_prop (f : α → β → γ) (P : γ → Prop) (l1 : List α) :
    ∀ l2 : List β, (∀ a ∈ l1, ∀ b ∈ l2, P (f a b)) →
      ∀ z ∈ List.zipWith f l1 l2, P z := by
  induction l1 with
  | nil => intro l2 _ z hz; cases hz
  | cons a l1 ih =>
    intro l2 h z hz
    cases l2 with
    | nil => cases hz
    | cons b l2 =>
      simp only [List.zipWith_cons_cons, List.mem_cons] at hz
      rcases hz with hz | hz
      · rw [hz]
        exact h a (List.mem_cons_self a l1) b (List.mem_cons_self b l2)
      · exact ih l2 (fun a' ha' b' hb' =>
          h a' (List.mem_cons_of_mem a ha') b' (List.mem_cons_of_mem b hb'))
          z hz

/-- C1 — `DQNLoss.forward` equals the mean over the batch of the smooth-L1
(Huber) distance between the online network's value of the taken action
and the bootstrapped target `reward + gamma * max_a targetQ(next_state)[a]
* (1 - done)`; in the dual semantics (second component = sensitivity to
the target network's parameters), the loss has the same value and its
sensitivity to the target parameters is identically zero — the `.detach()`
makes the target's contribution a constant, so no gradient flows into the
target network. -/
theorem dqnLoss_forward_spec [DecidableEq A] (q_network : List ℚ → List ℚ)
    (q_targetD : List ℚ → List DQ) (action_set : List A) (gamma : ℚ)
    (batch : List (Transition (List ℚ) A)) :
    DQNLoss.forward q_network (fun s => (q_targetD s).map DQ.val)
        action_set gamma (toBatch batch) =
      dqnLossFormula q_network (fun s => (q_targetD s).map DQ.val)
        action_set gamma batch ∧
    (DQNLoss.forwardD q_network q_targetD action_set gamma
        (toBatch batch)).val =
      DQNLoss.forward q_network (fun s => (q_targetD s).map DQ.val)
        action_set gamma (toBatch batch) ∧
    (DQNLoss.forwardD q_network q_targetD action_set gamma
        (toBatch batch)).tan = 0 := by
  refine ⟨?_, ?_, ?_⟩
  · simp only [DQNLoss.forward, dqnLossFormula, toBatch]
    congr 1
    induction batch with
    | nil => rfl
    | cons tr batch ih =>
      simp only [List.map_cons, List.zipWith_cons_cons, List.zip_cons_cons]
      rw [ih]
  · simp only [DQNLoss.forward, DQNLoss.forwardD, toBatch, dMeanQ, meanQ,
      DQ.val]
    congr 1
    · congr 1
      induction batch with
      | nil => rfl
      | cons tr batch ih =>
        simp only [List.map_cons, List.zipWith_cons_cons, List.zip_cons_cons]
        rw [ih]
        congr 1
        simp only [DQ.val]
        rw [dSmoothL1_fst]
        simp only [dAdd, dMul, dSub, dConst, dRowMax_fst, List.map_map]
        have hval : DQ.val ∘ dDetach = DQ.val := by
          funext x; rfl
        rw [hval]
    · congr 1
      induction batch with
      | nil => rfl
      | cons tr batch ih =>
        simp only [List.map_cons, List.zipWith_cons_cons, List.zip_cons_cons,
          List.length_cons]
        rw [ih]
  · simp only [DQNLoss.forwardD, DQ.tan, dMeanQ]
    rw [div_eq_zero_iff]
    left
    apply List.sum_eq_zero
    intro x hx
    obtain ⟨z, hz, rfl⟩ := List.mem_map.mp hx
    refine zipWith_mem_prop dSmoothL1 (fun w => DQ.tan w = 0) _ _ ?_ z hz
    intro a ha b hb
    refine dSmoothL1_snd a b ?_ ?_
    · exact zipWith_mem_prop _ (fun w => w.2 = 0) _ _
        (fun _ _ _ _ => rfl) a ha
    · refine zipWith_mem_prop _ (fun w => w.2 = 0) _ _ ?_ b hb
      intro r _ md hmd
      have hq := (List.of_mem_zip hmd).1
      obtain ⟨row, _, hrow⟩ := List.mem_map.mp hq
      have htan : (md.1).2 = 0 := by
        rw [← hrow]
        refine dRowMax_snd _ ?_
        intro y hy
        obtain ⟨w, _, rfl⟩ := List.mem_map.mp hy
        rfl
      simp [dAdd, dMul, dSub, dConst, htan]

/-! ## Trainer.episode (`src/DQNAgent.py` lines 159–232)

The environment (external collaborator) is abstracted by: `envN` — the
number of `act` calls until `game_over()` turns true; `frame k` — the
preprocessed screen after `k` acts; `rew k` — the raw reward of act `k`.
The policy (`agent.get_action`, epsilon-greedy with its internal
randomness) is abstracted as a function `pol` of the step count and the
current frame stack; the optimizer step (`zero_grad`/`backward`/`step`) as
an abstract update `opt` of the online parameters.  `learn_count` is an
observation counter incremented exactly when control passes the
`len(memory) <= num_samples_pre` gate (it mirrors no source state).

Per iteration the body mirrors lines 184–214:
action selection (warm-up `None` below `frame_stack` steps), `env.act`,
reward clipping, frame push, transition push when `steps > frame_stack`,
counter increments, the pre-fill gate (`continue` when
`len(memory) <= num_samples_pre`), `set_eps`, one optimizer step, and the
periodic target sync. -/

/-- `np.clip(reward, -1.0, 1.0)`. -/
def clip (r : ℚ) : ℚ := max (-1) (min 1 r)

/-- `DQNAgent.update_target` (lines 87–88): the target parameters become a
full copy of the online parameters. -/
def update_target (q_network _q_target : Θ) : Θ := q_network

structure TrainerConfig (F A Θ : Type) where
  frame_stack : ℕ
  max_ep_steps : ℕ
  num_samples_pre : ℕ
  reset_target : ℕ
  final_exp_frame : ℕ
  memory_size : ℕ
  envN : ℕ
  frame : ℕ → F
  rew : ℕ → ℚ
  pol : ℕ → List F → A
  opt : Θ → ℕ → Θ

structure TrainerState (F A Θ : Type) where
  total_steps : ℕ
  eps : ℚ
  frame_stacker : List F
  memory : ReplayMemory (List F) (Option A)
  reward_acc : List ℚ
  learn_count : ℕ
  theta_q : Θ
  theta_t : Θ

/-- Lines 184–201: action selection (warm-up `None` while
`steps < frame_stack`), `env.act`, reward clipping, frame push, the
conditional transition push (`steps > frame_stack`), and the counter
increments. -/
def recordPhase (cfg : TrainerConfig F A Θ) (steps acts : ℕ)
    (st : TrainerState F A Θ) : TrainerState F A Θ :=
  let action : Option A :=
    if steps < cfg.frame_stack then none
    else some (cfg.pol st.total_steps st.frame_stacker)
  let psi_state := st.frame_stacker
  let reward := clip (cfg.rew acts)
  let acts' := acts + 1
  let fs' := dequeAppend cfg.frame_stack st.frame_stacker (cfg.frame acts')
  let mem' :=
    if cfg.frame_stack < steps then
      st.memory.push ⟨psi_state, action, fs', reward, decide (cfg.envN ≤ acts')⟩
    else st.memory
  { st with
      total_steps := st.total_steps + 1
      frame_stacker := fs'
      memory := mem'
      reward_acc := st.reward_acc ++ [reward] }

/-- Lines 202–214: the pre-fill gate (`continue` when
`len(memory) <= num_samples_pre`), `set_eps`, one optimizer step on the
online parameters, and the periodic `update_target` sync (every
`reset_target` total steps). -/
def learnPhase (cfg : TrainerConfig F A Θ) (st : TrainerState F A Θ) :
    TrainerState F A Θ :=
  if st.memory.len ≤ cfg.num_samples_pre then st
  else
    let thq' := cfg.opt st.theta_q st.total_steps
    { st with
        eps := set_eps st.total_steps cfg.final_exp_frame
        theta_q := thq'
        theta_t :=
          if st.total_steps % cfg.reset_target = 0 then
            update_target thq' st.theta_t
          else st.theta_t
        learn_count := st.learn_count + 1 }

/-- One iteration of the `while` loop of `Trainer.episode`, at loop-local
step counter `steps` with `acts` environment acts already performed. -/
def episodeStep (cfg : TrainerConfig F A Θ) (steps acts : ℕ)
    (st : TrainerState F A Θ) : TrainerState F A Θ :=
  learnPhase cfg (recordPhase cfg steps acts st)

/-- The `while` loop, with `fuel = max_ep_steps - steps` supplying the
`steps < max_ep_steps` bound and `envN ≤ acts` supplying `game_over()`. -/
def episodeLoop (cfg : TrainerConfig F A Θ) :
    ℕ → ℕ → ℕ → TrainerState F A Θ → TrainerState F A Θ
  | 0, _, _, st => st
  | fuel + 1, steps, acts, st =>
    if cfg.envN ≤ acts then st
    else episodeLoop cfg fuel (steps + 1) (acts + 1) (episodeStep cfg steps acts st)

/-- `Trainer.episode`: resets (`reset_game`, `frame_stacker.clear()`,
`rewards = []`), appends the initial screen, then runs the loop. -/
def Trainer.episode (cfg : TrainerConfig F A Θ) (st : TrainerState F A Θ) :
    TrainerState F A Θ :=
  let st0 := { st with
      frame_stacker := dequeAppend cfg.frame_stack [] (cfg.frame 0)
      reward_acc := [] }
  episodeLoop cfg cfg.max_ep_steps 0 0 st0

/-- A fresh `Trainer` (`DQNAgent.__init__` sets `eps = 1.0` at line 84;
`Trainer.__init__` builds an empty memory of size `memory_size`). -/
def initialTrainerState (cfg : TrainerConfig F A Θ) (θq θt : Θ) :
    TrainerState F A Θ :=
  { total_steps := 0
    eps := 1
    frame_stacker := []
    memory := ReplayMemory.mk_empty (List F) (Option A) cfg.memory_size
    reward_acc := []
    learn_count := 0
    theta_q := θq
    theta_t := θt }

/-- A deterministic stub instantiation (frames are their own index, zero
rewards, constant policy, an optimizer step that increments the parameter
counter), with the source's default `max_ep_steps`, `memory_size` and
`final_exp_frame`. -/
def stubConfig (envN frame_stack num_samples_pre reset_target : ℕ) :
    TrainerConfig ℕ ℕ ℕ :=
  { frame_stack := frame_stack
    max_ep_steps := 1000000
    num_samples_pre := num_samples_pre
    reset_target := reset_target
    final_exp_frame := 100000
    memory_size := 50000
    envN := envN
    frame := fun k => k
    rew := fun _ => 0
    pol := fun _ _ => 0
    opt := fun θ _ => θ + 1 }

theorem learnPhase_memory (cfg : TrainerConfig F A Θ)
    (st : TrainerState F A Θ) : (learnPhase cfg st).memory = st.memory := by
  unfold learnPhase
  split <;> rfl

theorem learnPhase_of_le (cfg : TrainerConfig F A Θ)
    (st : TrainerState F A Θ) (h : st.memory.len ≤ cfg.num_samples_pre) :
    learnPhase cfg st = st := by
  unfold learnPhase
  rw [if_pos h]

theorem learnPhase_of_gt (cfg : TrainerConfig F A Θ)
    (st : TrainerState F A Θ) (h : cfg.num_samples_pre < st.memory.len) :
    learnPhase cfg st =
      { st with
          eps := set_eps st.total_steps cfg.final_exp_frame
          theta_q := cfg.opt st.theta_q st.total_steps
          theta_t :=
            if st.total_steps % cfg.reset_target = 0 then
              update_target (cfg.opt st.theta_q st.total_steps) st.theta_t
            else st.theta_t
          learn_count := st.learn_count + 1 } := by
  unfold learnPhase
  rw [if_neg (not_le.mpr h)]

theorem episodeStep_memory (cfg : TrainerConfig F A Θ) (steps acts : ℕ)
    (st : TrainerState F A Θ) :
    (episodeStep cfg steps acts st).memory =
      (recordPhase cfg steps acts st).memory :=
  learnPhase_memory cfg _

theorem episodeStep_eps_of_le (cfg : TrainerConfig F A Θ) (steps acts : ℕ)
    (st : TrainerState F A Θ)
    (h : (episodeStep cfg steps acts st).memory.len ≤ cfg.num_samples_pre) :
    (episodeStep cfg steps acts st).eps = st.eps := by
  rw [episodeStep_memory] at h
  unfold episodeStep
  rw [learnPhase_of_le cfg _ h]
  rfl

/-- `x` retained by a bounded append was already present or is the new
element. -/
theorem mem_dequeAppend {x : α} (C : ℕ) (l : List α) (y : α)
    (h : x ∈ dequeAppend C l y) : x ∈ l ∨ x = y := by
  have hsub : x ∈ l ++ [y] := List.drop_subset _ _ h
  rcases List.mem_append.mp hsub with h1 | h2
  · exact Or.inl h1
  · exact Or.inr (List.mem_singleton.mp h2)

/-- The memory after the record phase: unchanged below the
`steps > frame_stack` boundary, one push above it. -/
theorem recordPhase_memory_cases (cfg : TrainerConfig F A Θ)
    (steps acts : ℕ) (st : TrainerState F A Θ) :
    (recordPhase cfg steps acts st).memory = st.memory ∨
    ∃ t, (recordPhase cfg steps acts st).memory = st.memory.push t := by
  unfold recordPhase
  dsimp only
  by_cases hpush : cfg.frame_stack < steps
  · right
    exact ⟨_, by rw [if_pos hpush]⟩
  · left
    rw [if_neg hpush]

theorem push_len (m : ReplayMemory σ A) (t : Transition σ A) :
    (m.push t).len = min (m.len + 1) m.capacity ∧
    (m.push t).capacity = m.capacity := by
  unfold ReplayMemory.push ReplayMemory.len
  exact ⟨dequeAppend_length _ _ _, rfl⟩

theorem episodeStep_memInv (cfg : TrainerConfig F A Θ) (steps acts : ℕ)
    (st : TrainerState F A Θ)
    (h : st.memory.len ≤ st.memory.capacity) :
    (episodeStep cfg steps acts st).memory.len ≤
        (episodeStep cfg steps acts st).memory.capacity ∧
      st.memory.len ≤ (episodeStep cfg steps acts st).memory.len ∧
      (episodeStep cfg steps acts st).memory.capacity =
        st.memory.capacity := by
  rw [episodeStep_memory]
  rcases recordPhase_memory_cases cfg steps acts st with hm | ⟨t, hm⟩
  · rw [hm]
    exact ⟨h, le_refl _, rfl⟩
  · rw [hm]
    obtain ⟨h1, h2⟩ := push_len st.memory t
    rw [h1, h2]
    refine ⟨?_, ?_, rfl⟩ <;> omega

theorem learnPhase_frame_stacker (cfg : TrainerConfig F A Θ)
    (st : TrainerState F A Θ) :
    (learnPhase cfg st).frame_stacker = st.frame_stacker := by
  unfold learnPhase
  split <;> rfl

theorem episodeStep_frame_stacker (cfg : TrainerConfig F A Θ)
    (steps acts : ℕ) (st : TrainerState F A Θ) :
    (episodeStep cfg steps acts st).frame_stacker =
      dequeAppend cfg.frame_stack st.frame_stacker (cfg.frame (acts + 1)) := by
  unfold episodeStep
  rw [learnPhase_frame_stacker]
  rfl

theorem episodeLoop_len_mono (cfg : TrainerConfig F A Θ) (fuel : ℕ) :
    ∀ (steps acts : ℕ) (st : TrainerState F A Θ),
      st.memory.len ≤ st.memory.capacity →
      st.memory.len ≤ (episodeLoop cfg fuel steps acts st).memory.len := by
  induction fuel with
  | zero => intro steps acts st _; exact le_refl _
  | succ fuel ih =>
    intro steps acts st h
    simp only [episodeLoop]
    by_cases hg : cfg.envN ≤ acts
    · rw [if_pos hg]
    · rw [if_neg hg]
      obtain ⟨h1, h2, _⟩ := episodeStep_memInv cfg steps acts st h
      exact le_trans h2 (ih (steps + 1) (acts + 1) _ h1)

theorem episodeLoop_eps_prefill (cfg : TrainerConfig F A Θ) (fuel : ℕ) :
    ∀ (steps acts : ℕ) (st : TrainerState F A Θ),
      st.memory.len ≤ st.memory.capacity →
      (episodeLoop cfg fuel steps acts st).memory.len ≤ cfg.num_samples_pre →
      (episodeLoop cfg fuel steps acts st).eps = st.eps := by
  induction fuel with
  | zero => intro steps acts st _ _; rfl
  | succ fuel ih =>
    intro steps acts st h hend
    simp only [episodeLoop] at hend ⊢
    by_cases hg : cfg.envN ≤ acts
    · rw [if_pos hg]
    · rw [if_neg hg] at hend ⊢
      obtain ⟨h1, _, _⟩ := episodeStep_memInv cfg steps acts st h
      have hstep_le :
          (episodeStep cfg steps acts st).memory.len ≤ cfg.num_samples_pre :=
        le_trans (episodeLoop_len_mono cfg fuel (steps + 1) (acts + 1) _ h1)
          hend
      rw [ih (steps + 1) (acts + 1) _ h1 hend]
      exact episodeStep_eps_of_le cfg steps acts st hstep_le

theorem episodeLoop_recorded (cfg : TrainerConfig F A Θ) (fuel : ℕ) :
    ∀ (steps acts : ℕ) (st : TrainerState F A Θ),
      st.frame_stacker.length = min (steps + 1) cfg.frame_stack →
      (∀ tr ∈ st.memory.memory, tr.action ≠ none ∧
        tr.state.length = cfg.frame_stack ∧
        tr.next_state.length = cfg.frame_stack) →
      ∀ tr ∈ (episodeLoop cfg fuel steps acts st).memory.memory,
        tr.action ≠ none ∧ tr.state.length = cfg.frame_stack ∧
        tr.next_state.length = cfg.frame_stack := by
  induction fuel with
  | zero => intro steps acts st _ hmem; exact hmem
  | succ fuel ih =>
    intro steps acts st hfs hmem
    simp only [episodeLoop]
    by_cases hg : cfg.envN ≤ acts
    · rw [if_pos hg]
      exact hmem
    · rw [if_neg hg]
      refine ih (steps + 1) (acts + 1) _ ?_ ?_
      · rw [episodeStep_frame_stacker, dequeAppend_length, hfs]
        omega
      · rw [episodeStep_memory]
        intro tr htr
        by_cases hpush : cfg.frame_stack < steps
        · have hmem_eq : (recordPhase cfg steps acts st).memory =
              st.memory.push
                ⟨st.frame_stacker,
                  some (cfg.pol st.total_steps st.frame_stacker),
                  dequeAppend cfg.frame_stack st.frame_stacker
                    (cfg.frame (acts + 1)),
                  clip (cfg.rew acts), decide (cfg.envN ≤ acts + 1)⟩ := by
            unfold recordPhase
            dsimp only
            rw [if_pos hpush, if_neg (by omega : ¬ steps < cfg.frame_stack)]
          rw [hmem_eq] at htr
          unfold ReplayMemory.push at htr
          rcases mem_dequeAppend _ _ _ htr with hold | hnew
          · exact hmem tr hold
          · subst hnew
            refine ⟨by simp, ?_, ?_⟩
            · show st.frame_stacker.length = cfg.frame_stack
              rw [hfs]
              omega
            · show (dequeAppend cfg.frame_stack st.frame_stacker
                  (cfg.frame (acts + 1))).length = cfg.frame_stack
              rw [dequeAppend_length, hfs]
              omega
        · have hmem_eq : (recordPhase cfg steps acts st).memory = st.memory := by
            unfold recordPhase
            dsimp only
            rw [if_neg hpush]
          rw [hmem_eq] at htr
          exact hmem tr htr

/-- C5 — no training episode ever stores a warm-up (`None`) fill action in
replay memory, and every stored transition has both its state and its
next_state stack full (length `frame_stack`); concretely, one episode on a
stub environment that terminates after 10 steps with `frame_stack = 4`
records exactly `10 - 4 - 1 = 5` transitions. -/
theorem warmupNoopExcluded (cfg : TrainerConfig F A Θ) (θq θt : Θ) :
    (∀ tr ∈ (Trainer.episode cfg
        (initialTrainerState cfg θq θt)).memory.memory,
      tr.action ≠ none ∧ tr.state.length = cfg.frame_stack ∧
      tr.next_state.length = cfg.frame_stack) ∧
    (Trainer.episode (stubConfig 10 4 30000 10000)
        (initialTrainerState (stubConfig 10 4 30000 10000) 0 0)).memory.len =
      5 := by
  constructor
  · unfold Trainer.episode
    refine episodeLoop_recorded cfg cfg.max_ep_steps 0 0 _ ?_ ?_
    · show (dequeAppend cfg.frame_stack [] (cfg.frame 0)).length =
        min (0 + 1) cfg.frame_stack
      rw [dequeAppend_length]
      rfl
    · intro tr htr
      exact absurd htr (List.not_mem_nil tr)
  · decide

/-- Witness for C5: the first transition of the 10-step stub episode has a
real (non-`None`) action. -/
theorem warmupNoopExcluded_witness :
    (⟨[2, 3, 4, 5], some 0, [3, 4, 5, 6], 0, false⟩ :
      Transition (List ℕ) (Option ℕ)).action ≠ none :=
  ((warmupNoopExcluded (stubConfig 10 4 30000 10000) 0 0).1
    ⟨[2, 3, 4, 5], some 0, [3, 4, 5, 6], 0, false⟩ (by decide)).1

/-- C6 (amended) — on every active training step, after recording: the
learning step (eps decay, batch sample, loss, optimizer step) is skipped
if and only if the replay memory holds **at most** `numSamplesPre`
transitions (`len(memory) <= num_samples_pre`); whenever
`len(memory) > numSamplesPre`, the learning step is performed. -/
theorem learningGate (cfg : TrainerConfig F A Θ) (steps acts : ℕ)
    (st : TrainerState F A Θ) :
    ((episodeStep cfg steps acts st).memory.len ≤ cfg.num_samples_pre →
      (episodeStep cfg steps acts st).eps = st.eps ∧
      (episodeStep cfg steps acts st).theta_q = st.theta_q ∧
      (episodeStep cfg steps acts st).theta_t = st.theta_t ∧
      (episodeStep cfg steps acts st).learn_count = st.learn_count) ∧
    (cfg.num_samples_pre < (episodeStep cfg steps acts st).memory.len →
      (episodeStep cfg steps acts st).learn_count = st.learn_count + 1 ∧
      (episodeStep cfg steps acts st).eps =
        set_eps (st.total_steps + 1) cfg.final_exp_frame ∧
      (episodeStep cfg steps acts st).theta_q =
        cfg.opt st.theta_q (st.total_steps + 1)) := by
  constructor
  · intro h
    rw [episodeStep_memory] at h
    unfold episodeStep
    rw [learnPhase_of_le cfg _ h]
    exact ⟨rfl, rfl, rfl, rfl⟩
  · intro h
    rw [episodeStep_memory] at h
    unfold episodeStep
    rw [learnPhase_of_gt cfg _ h]
    exact ⟨rfl, rfl, rfl⟩

/-- C6 counterexample — episode on a stub environment that stops after 6
acts with `num_samples_pre = 1`: the step that records the first (and
only) transition brings `len(memory)` to `1 = numSamplesPre`, yet the
whole episode performs no learning step (the learn counter stays 0, `eps`
stays 1.0 and the online parameters stay at their initial value even
though the stub optimizer would have changed them), because the code
skips on `len(memory) <= num_samples_pre`, not `<`. -/
theorem learningGate_counterexample :
    (Trainer.episode (stubConfig 6 4 1 10000)
        (initialTrainerState (stubConfig 6 4 1 10000) 0 0)).memory.len = 1 ∧
    (stubConfig 6 4 1 10000).num_samples_pre = 1 ∧
    (Trainer.episode (stubConfig 6 4 1 10000)
        (initialTrainerState (stubConfig 6 4 1 10000) 0 0)).learn_count = 0 ∧
    (Trainer.episode (stubConfig 6 4 1 10000)
        (initialTrainerState (stubConfig 6 4 1 10000) 0 0)).eps = 1 ∧
    (Trainer.episode (stubConfig 6 4 1 10000)
        (initialTrainerState (stubConfig 6 4 1 10000) 0 0)).theta_q = 0 := by
  refine ⟨by decide, rfl, by decide, by decide, by decide⟩

def witnessTransition : Transition (List ℕ) (Option ℕ) :=
  ⟨[0, 0, 0, 0], some 0, [0, 0, 0, 0], 0, false⟩

def witnessStateSkip : TrainerState ℕ ℕ ℕ :=
  { total_steps := 0
    eps := 1
    frame_stacker := []
    memory := ⟨50000, []⟩
    reward_acc := []
    learn_count := 0
    theta_q := 0
    theta_t := 0 }

def witnessStateLearn : TrainerState ℕ ℕ ℕ :=
  { total_steps := 9
    eps := 1
    frame_stacker := [1, 2, 3, 4]
    memory := ⟨50000, [witnessTransition, witnessTransition]⟩
    reward_acc := []
    learn_count := 0
    theta_q := 0
    theta_t := 0 }

/-- Witness for C6 (amended): a data-collection step leaves `eps`
untouched, a post-gate step increments the learn counter. -/
theorem learningGate_witness :
    (episodeStep (stubConfig 6 4 1 10000) 0 0 witnessStateSkip).eps =
        witnessStateSkip.eps ∧
    (episodeStep (stubConfig 6 4 1 10000) 5 5 witnessStateLearn).learn_count =
        witnessStateLearn.learn_count + 1 := by
  constructor
  · exact ((learningGate (stubConfig 6 4 1 10000) 0 0 witnessStateSkip).1
      (by decide)).1
  · exact ((learningGate (stubConfig 6 4 1 10000) 5 5 witnessStateLearn).2
      (by decide)).1

/-- C8 — per training step: the target parameters either stay unchanged or
become a full copy of the (current) online parameters via `update_target`
(they are never optimizer-updated); the online parameters change only via
the optimizer step; immediately after a sync, any network evaluated at the
target and at the online parameters gives identical outputs on every
input; and the equality persists through steps that perform no gradient
update. -/
theorem targetSync (cfg : TrainerConfig F A Θ) (steps acts : ℕ)
    (st : TrainerState F A Θ) :
    ((episodeStep cfg steps acts st).theta_t = st.theta_t ∨
      (episodeStep cfg steps acts st).theta_t =
        (episodeStep cfg steps acts st).theta_q) ∧
    ((episodeStep cfg steps acts st).theta_t ≠ st.theta_t →
      (episodeStep cfg steps acts st).theta_t =
        (episodeStep cfg steps acts st).theta_q ∧
      ∀ (I : Type) (net : Θ → I → ℚ) (x : I),
        net (episodeStep cfg steps acts st).theta_t x =
          net (episodeStep cfg steps acts st).theta_q x) ∧
    ((episodeStep cfg steps acts st).theta_q ≠ st.theta_q →
      (episodeStep cfg steps acts st).theta_q =
        cfg.opt st.theta_q (st.total_steps + 1)) ∧
    (st.theta_t = st.theta_q →
      (episodeStep cfg steps acts st).memory.len ≤ cfg.num_samples_pre →
      (episodeStep cfg steps acts st).theta_t =
        (episodeStep cfg steps acts st).theta_q) := by
  unfold episodeStep
  by_cases hg : (recordPhase cfg steps acts st).memory.len ≤
    cfg.num_samples_pre
  · rw [learnPhase_of_le cfg _ hg]
    refine ⟨Or.inl rfl, ?_, ?_, ?_⟩
    · intro h
      exact absurd rfl h
    · intro h
      exact absurd rfl h
    · intro he _
      exact he
  · rw [learnPhase_of_gt cfg _ (not_le.mp hg)]
    by_cases hs : (recordPhase cfg steps acts st).total_steps %
      cfg.reset_target = 0
    · rw [if_pos hs]
      refine ⟨Or.inr rfl, ?_, ?_, ?_⟩
      · intro _
        exact ⟨rfl, fun I net x => rfl⟩
      · intro _
        rfl
      · intro _ hlen
        exact absurd hlen hg
    · rw [if_neg hs]
      refine ⟨Or.inl rfl, ?_, ?_, ?_⟩
      · intro h
        exact absurd rfl h
      · intro _
        rfl
      · intro _ hlen
        exact absurd hlen hg

def witnessStateSync : TrainerState ℕ ℕ ℕ :=
  { total_steps := 0
    eps := 1
    frame_stacker := [1, 2, 3, 4]
    memory := ⟨50000, [witnessTransition, witnessTransition]⟩
    reward_acc := []
    learn_count := 0
    theta_q := 0
    theta_t := 5 }

/-- Witness for C8: with `reset_target = 1` and `num_samples_pre = 0`, a
learning step syncs the target to the online parameters. -/
theorem targetSync_witness :
    (episodeStep (stubConfig 6 4 0 1) 5 5 witnessStateSync).theta_t =
      (episodeStep (stubConfig 6 4 0 1) 5 5 witnessStateSync).theta_q :=
  ((targetSync (stubConfig 6 4 0 1) 5 5 witnessStateSync).2.1
    (by decide)).1

/-- C10 — a step whose post-record memory length is at most
`num_samples_pre` leaves `eps` unchanged (`set_eps` runs only on learning
steps), and a whole fresh-start episode that stays inside the pre-fill
phase keeps `eps` at its initial value 1.0 no matter how large
`total_steps` grows. -/
theorem prefill_eps_frozen (cfg : TrainerConfig F A Θ) :
    (∀ (steps acts : ℕ) (st : TrainerState F A Θ),
      (episodeStep cfg steps acts st).memory.len ≤ cfg.num_samples_pre →
      (episodeStep cfg steps acts st).eps = st.eps) ∧
    (∀ θq θt : Θ,
      (Trainer.episode cfg (initialTrainerState cfg θq θt)).memory.len ≤
        cfg.num_samples_pre →
      (Trainer.episode cfg (initialTrainerState cfg θq θt)).eps = 1) := by
  constructor
  · exact episodeStep_eps_of_le cfg
  · intro θq θt h
    unfold Trainer.episode at h ⊢
    exact episodeLoop_eps_prefill cfg cfg.max_ep_steps 0 0 _
      (Nat.zero_le _) h

/-- Witness for C10: the 10-step stub episode stays in the pre-fill phase
(5 < 30000 recorded transitions), so `eps` is still 1.0 at its end. -/
theorem prefill_eps_frozen_witness :
    (Trainer.episode (stubConfig 10 4 30000 10000)
        (initialTrainerState (stubConfig 10 4 30000 10000) 0 0)).eps = 1 :=
  (prefill_eps_frozen (stubConfig 10 4 30000 10000)).2 0 0 (by decide)

end DQNFlappy
